import Mathlib

/-!
# gover: version snapshots of a tree under a path prefix

A shallow embedding of `gover.go`.  The program is a straight-line script over
the external `git` command, so the embedding has three layers:

* the pieces of the Go standard library the script computes with
  (`filepath.Clean`, `filepath.Join`, `bytes.TrimSpace`), transcribed from the
  Unix implementation of the library;
* the process itself: `Usage`, `GitCmd`, `GitRun`, `GitIndexDirty`, `GitRm`
  and `main`, written in a small monad `Proc` that threads the state of the
  outside world, records every external call together with its result, and can
  stop the process with an exit status (`os.Exit`);
* the outside world, a parameter `World σ` that answers `git` invocations and
  `os.Stat`.  Theorems that hold for every behaviour of `git` quantify over it.
  `gitWorld` is one concrete world, a model of the few `git` commands the script
  issues, used where a statement is about the content of the repository.

Text written to standard error is not part of the model.  Strings are Lean
strings; the path functions only inspect the ASCII bytes `/` and `.`, so working
on characters instead of bytes makes no difference for them.
-/

namespace Gover

/-! ## Go standard library: `path/filepath` (Unix) -/

/-- The byte test `os.IsPathSeparator` on Unix. -/
def isPathSeparator (c : Char) : Bool := c == '/'

/-- The test `r == n || os.IsPathSeparator(path[r])` on the unread rest of the path. -/
def atSeparatorOrEnd : List Char → Bool
  | [] => true
  | c :: _ => isPathSeparator c

/-- The backtracking of `filepath.Clean` on a `..` element:
`out.w--; for out.w > dotdot && !os.IsPathSeparator(out.index(out.w)) { out.w-- }`.
The output buffer is the list of bytes written so far, last byte first, so `out.w` is its
length and `out.index(out.w)` after the decrement is the byte just dropped. -/
def backtrack (dotdot : Nat) : List Char → List Char
  | [] => []
  | c :: out => if out.length > dotdot && !isPathSeparator c then backtrack dotdot out else out

/-- The main loop `for r < n` of `filepath.Clean`.  The arguments are the fuel, the unread
rest `path[r:]`, `rooted`, the output buffer (last byte first) and `dotdot`.  Every iteration
consumes at least one byte, so fuel equal to the length of the path is never used up
(`cleanLoop_isSome`). -/
def cleanLoop : Nat → List Char → Bool → List Char → Nat → Option (List Char)
  | _, [], _, out, _ => some out
  | 0, _ :: _, _, _, _ => none
  | fuel + 1, c :: rest, rooted, out, dotdot =>
    if isPathSeparator c then
      -- empty path element
      cleanLoop fuel rest rooted out dotdot
    else if c == '.' && atSeparatorOrEnd rest then
      -- . element
      cleanLoop fuel rest rooted out dotdot
    else if c == '.' && rest.head? == some '.' && atSeparatorOrEnd rest.tail then
      -- .. element: remove to last separator
      if out.length > dotdot then
        cleanLoop fuel rest.tail rooted (backtrack dotdot out) dotdot
      else if !rooted then
        let out1 := if out.length > 0 then '/' :: out else out
        let out2 := '.' :: '.' :: out1
        cleanLoop fuel rest.tail rooted out2 out2.length
      else
        cleanLoop fuel rest.tail rooted out dotdot
    else
      -- real path element: add slash if needed, copy element
      let out1 :=
        if (rooted && out.length != 1) || (!rooted && out.length != 0) then '/' :: out else out
      let elem := (c :: rest).takeWhile (fun x => !isPathSeparator x)
      let rest1 := (c :: rest).dropWhile (fun x => !isPathSeparator x)
      cleanLoop fuel rest1 rooted (elem.reverse ++ out1) dotdot

/-- The function `filepath.Clean` on the bytes of a path (no volume name on Unix). -/
def cleanChars (path : List Char) : List Char :=
  match path with
  | [] => ['.']
  | c :: rest =>
    let r :=
      if isPathSeparator c then cleanLoop path.length rest true ['/'] 1
      else cleanLoop path.length path false [] 0
    match r with
    | some [] => ['.']
    | some out => out.reverse
    | none => []

/-- The function `filepath.Clean`. -/
def filepath.Clean (path : String) : String := ⟨cleanChars path.data⟩

/-- The function `strings.Join(elems, "/")`. -/
def joinSep : List String → String
  | [] => ""
  | [e] => e
  | e :: es => e ++ "/" ++ joinSep es

/-- The function `filepath.Join`: empty leading elements are skipped, the rest is joined
with the separator and cleaned; the result is empty when every element is. -/
def filepath.Join : List String → String
  | [] => ""
  | e :: es => if e = "" then filepath.Join es else filepath.Clean (joinSep (e :: es))

/-! ## Go standard library: `bytes.TrimSpace` -/

/-- The predicate `unicode.IsSpace`. -/
def isSpace (c : Char) : Bool :=
  c == '\t' || c == '\n' || c.toNat == 0x0B || c.toNat == 0x0C || c == '\r' || c == ' ' ||
  c.toNat == 0x85 || c.toNat == 0xA0 || c.toNat == 0x1680 ||
  (0x2000 ≤ c.toNat && c.toNat ≤ 0x200A) || c.toNat == 0x2028 || c.toNat == 0x2029 ||
  c.toNat == 0x202F || c.toNat == 0x205F || c.toNat == 0x3000

/-- The function `bytes.TrimSpace` followed by the conversion to a string. -/
def TrimSpace (s : String) : String :=
  ⟨((s.data.dropWhile isSpace).reverse.dropWhile isSpace).reverse⟩

/-! ## The outside world and the process monad -/

/-- The error of a finished `exec.Cmd`: an `*exec.ExitError` (the command ran and exited
unsuccessfully, with this status) or any other error (the command could not be run). -/
inductive ExecError where
  | exitError (status : Int)
  | other
  deriving DecidableEq, Repr

/-- What `CombinedOutput` returns: the output and the error (`none` is Go's `nil`). -/
structure CmdResult where
  out : String
  err : Option ExecError
  deriving DecidableEq, Repr

/-- The error of `os.Stat`, as far as `os.IsNotExist` tells errors apart. -/
inductive StatError where
  | nil
  | notExist
  | other
  deriving DecidableEq, Repr

/-- The function `os.IsNotExist`. -/
def os.IsNotExist : StatError → Bool
  | .notExist => true
  | _ => false

/-- The outside world: how `git` answers an argument list in a state (and the state it
leaves), and what `os.Stat` finds at a path. -/
structure World (σ : Type) where
  git : List String → σ → CmdResult × σ
  stat : String → σ → StatError

/-- One external call of the process, with its result. -/
inductive Call where
  | git (args : List String) (res : CmdResult)
  | stat (path : String) (err : StatError)
  deriving DecidableEq, Repr

/-- The state threaded through the process: the outside world and the calls made so far. -/
structure PState (σ : Type) where
  world : σ
  calls : List Call

/-- A computation step either returns a value or ends the process with an exit status. -/
inductive Result (σ α : Type) where
  | ret (a : α) (st : PState σ)
  | exit (code : Nat) (st : PState σ)

/-- Computations of the process. -/
def Proc (σ α : Type) : Type := PState σ → Result σ α

/-- Sequencing: nothing runs after the process has exited. -/
def Proc.bind {σ α β : Type} (m : Proc σ α) (f : α → Proc σ β) : Proc σ β :=
  fun st =>
    match m st with
    | .ret a st1 => f a st1
    | .exit code st1 => .exit code st1

instance {σ : Type} : Monad (Proc σ) where
  pure a := fun st => .ret a st
  bind := Proc.bind

/-- The function `os.Exit`. -/
def os.Exit {σ α : Type} (code : Nat) : Proc σ α := fun st => .exit code st

/-- The call `os.Stat(path)`, of which the script only keeps the error. -/
def os.Stat {σ : Type} (W : World σ) (path : String) : Proc σ StatError :=
  fun st =>
    let err := W.stat path st.world
    .ret err ⟨st.world, st.calls ++ [Call.stat path err]⟩

/-! ## The program -/

/-- The constant `defaultPrefix`. -/
def defaultPrefix : String := "_ver"

/-- The command line after `flag.Parse`: the values of the four flag variables and the
positional arguments. -/
structure Flags where
  prefix_ : String
  msg : String
  noCommit : Bool
  force : Bool
  args : List String
  deriving DecidableEq, Repr

/-- The function `flag.Arg`: the i-th positional argument, empty when there is none. -/
def flag.Arg (a : Flags) (i : Nat) : String := a.args.getD i ""

/-- The function `Usage`: after printing it exits with status 1. -/
def Usage {σ α : Type} : Proc σ α := os.Exit 1

/-- The function `GitCmd`: `exec.Command("git", args...).CombinedOutput()`. -/
def GitCmd {σ : Type} (W : World σ) (args : List String) : Proc σ CmdResult :=
  fun st =>
    let r := W.git args st.world
    .ret r.1 ⟨r.2, st.calls ++ [Call.git args r.1]⟩

/-- The function `GitRun`: any error of the command ends the process with status 127. -/
def GitRun {σ : Type} (W : World σ) (args : List String) : Proc σ String := do
  let r ← GitCmd W args
  if r.err ≠ none then
    os.Exit 127
  else
    return TrimSpace r.out

/-- The function `GitIndexDirty`: the type switch on the error of
`git diff-index --cached --exit-code HEAD`. -/
def GitIndexDirty {σ : Type} (W : World σ) : Proc σ Bool := do
  let r ← GitCmd W ["diff-index", "--cached", "--exit-code", "HEAD"]
  match r.err with
  | none => return false
  | some (.exitError _) => return true
  | some .other => os.Exit 126

/-- The function `GitRm`. -/
def GitRm {σ : Type} (W : World σ) (path : String) : Proc σ Unit := do
  let _ ← GitRun W ["rm", "-r", "--force", "--ignore-unmatch", "--", path]
  return ()

/-- The revision: the second positional argument, or the version label when that is empty. -/
def revOf (a : Flags) : String :=
  if flag.Arg a 1 = "" then flag.Arg a 0 else flag.Arg a 1

/-- The arguments of the commit command built by `main` from the message flag, the version
label and the resolved commit id. -/
def commitArgsOf (msg ver revSha : String) : List String :=
  let commitArgs := ["commit", "--no-verify"]
  if msg = "" then
    (commitArgs ++ ["--edit"]) ++ ["-m", "Update ver " ++ ver ++ " to " ++ revSha]
  else
    commitArgs ++ ["-m", msg]

/-- The function `main`.  The commit command runs with the terminal attached; only its
error is looked at. -/
def main {σ : Type} (W : World σ) (a : Flags) : Proc σ Unit := do
  let ver := flag.Arg a 0
  if ver = "" then
    Usage
  else
    let rev := revOf a
    -- Verify rev
    let revSha ← GitRun W ["rev-parse", "--verify", rev ++ "^\x7bcommit\x7d"]
    let verpath := filepath.Join [a.prefix_, ver]
    -- Make sure the index is clear
    if (← GitIndexDirty W) then
      os.Exit 3
    else
      -- Remove existing verpath if force is set, otherwise fail on existing path
      let err ← os.Stat W verpath
      (if !os.IsNotExist err then
        (if a.force then GitRm W verpath else os.Exit 4)
      else pure ())
      let _ ← GitRun W ["read-tree", "-u", "--prefix=" ++ verpath, rev]
      GitRm W (filepath.Join [verpath, a.prefix_])
      if !(← GitIndexDirty W) then
        return ()
      else if !a.noCommit then
        let r ← GitCmd W (commitArgsOf a.msg ver revSha)
        if r.err ≠ none then
          os.Exit 5
        else
          return ()
      else
        return ()

/-- The observable outcome of a run: exit status, external calls in order, final world. -/
structure Outcome (σ : Type) where
  exit : Nat
  calls : List Call
  world : σ

/-- The exit status a result stands for: returning from `main` is exit status 0. -/
def Result.code {σ α : Type} : Result σ α → Nat
  | .ret _ _ => 0
  | .exit code _ => code

/-- The state in which a result leaves the process. -/
def Result.state {σ α : Type} : Result σ α → PState σ
  | .ret _ st => st
  | .exit _ st => st

/-- Run `main` from a world state with no call made yet. -/
def run {σ : Type} (W : World σ) (a : Flags) (s : σ) : Outcome σ :=
  let r := main W a ⟨s, []⟩
  ⟨r.code, r.state.calls, r.state.world⟩

/-! ## Names for the pieces of a run -/

/-- The argument list of the revision check issued by `main`. -/
def revParseArgs (a : Flags) : List String :=
  ["rev-parse", "--verify", revOf a ++ "^\x7bcommit\x7d"]

/-- The argument list of the index check issued by `GitIndexDirty`. -/
def diffIndexArgs : List String := ["diff-index", "--cached", "--exit-code", "HEAD"]

/-- The argument list issued by `GitRm`. -/
def rmArgs (path : String) : List String :=
  ["rm", "-r", "--force", "--ignore-unmatch", "--", path]

/-- The argument list of the import issued by `main`. -/
def readTreeArgs (verpath rev : String) : List String :=
  ["read-tree", "-u", "--prefix=" ++ verpath, rev]

/-- The snapshot path `verpath` computed by `main`. -/
def verpathOf (a : Flags) : String := filepath.Join [a.prefix_, flag.Arg a 0]

/-- The nested marker path that `main` removes after the import. -/
def markerOf (a : Flags) : String := filepath.Join [verpathOf a, a.prefix_]

/-- The git subcommand of a call: the first argument of a `git` call, nothing for a call
of `os.Stat`. -/
def Call.command : Call → Option String
  | .git args _ => args.head?
  | .stat _ _ => none

/-- A git call that changes the index, the working tree or the history: `rm`, `read-tree`
or `commit`. -/
def Call.isMutating (c : Call) : Bool :=
  c.command = some "rm" || c.command = some "read-tree" || c.command = some "commit"

/-- The calls between the first index check and the import: the existence check alone when
the path is reported absent, or followed by the forced removal when that succeeded. -/
inductive Mid (a : Flags) : List Call → Prop
  | absent (e : StatError) (he : os.IsNotExist e = true) : Mid a [Call.stat (verpathOf a) e]
  | forced (e : StatError) (r : CmdResult) (he : os.IsNotExist e = false) (hf : a.force = true)
      (hr : r.err = none) :
      Mid a [Call.stat (verpathOf a) e, Call.git (rmArgs (verpathOf a)) r]

/-- The part of `main` from the import to the end (the `read-tree` call, the removal of
the nested marker, the final index check and the commit), as a computation of its own.  It
is reached in two ways, with or without the forced removal; `main_eq_mainTail` states that
`main` ends in it. -/
def mainTail {σ : Type} (W : World σ) (a : Flags) (revSha : String) : Proc σ Unit := do
  let _ ← GitRun W ["read-tree", "-u", "--prefix=" ++ verpathOf a, revOf a]
  GitRm W (markerOf a)
  if !(← GitIndexDirty W) then
    return ()
  else if !a.noCommit then
    let r ← GitCmd W (commitArgsOf a.msg (flag.Arg a 0) revSha)
    if r.err ≠ none then
      os.Exit 5
    else
      return ()
  else
    return ()

/-- Every way the part of a run from the import on can go: its exit status and its calls. -/
inductive TailShape (a : Flags) (revSha : String) : Nat → List Call → Prop
  | readTreeFail (r4 : CmdResult) (h4 : r4.err ≠ none) :
      TailShape a revSha 127 [Call.git (readTreeArgs (verpathOf a) (revOf a)) r4]
  | markerFail (r4 r5 : CmdResult) (h4 : r4.err = none) (h5 : r5.err ≠ none) :
      TailShape a revSha 127
        [Call.git (readTreeArgs (verpathOf a) (revOf a)) r4, Call.git (rmArgs (markerOf a)) r5]
  | checkErr (r4 r5 : CmdResult) (h4 : r4.err = none) (h5 : r5.err = none) (out : String) :
      TailShape a revSha 126
        [Call.git (readTreeArgs (verpathOf a) (revOf a)) r4, Call.git (rmArgs (markerOf a)) r5,
          Call.git diffIndexArgs ⟨out, some .other⟩]
  | nothing (r4 r5 : CmdResult) (h4 : r4.err = none) (h5 : r5.err = none) (out : String) :
      TailShape a revSha 0
        [Call.git (readTreeArgs (verpathOf a) (revOf a)) r4, Call.git (rmArgs (markerOf a)) r5,
          Call.git diffIndexArgs ⟨out, none⟩]
  | noCommit (r4 r5 : CmdResult) (h4 : r4.err = none) (h5 : r5.err = none) (out : String)
      (n : Int) (hn : a.noCommit = true) :
      TailShape a revSha 0
        [Call.git (readTreeArgs (verpathOf a) (revOf a)) r4, Call.git (rmArgs (markerOf a)) r5,
          Call.git diffIndexArgs ⟨out, some (.exitError n)⟩]
  | committed (r4 r5 : CmdResult) (h4 : r4.err = none) (h5 : r5.err = none) (out : String)
      (n : Int) (hn : a.noCommit = false) (out7 : String) :
      TailShape a revSha 0
        [Call.git (readTreeArgs (verpathOf a) (revOf a)) r4, Call.git (rmArgs (markerOf a)) r5,
          Call.git diffIndexArgs ⟨out, some (.exitError n)⟩,
          Call.git (commitArgsOf a.msg (flag.Arg a 0) revSha) ⟨out7, none⟩]
  | commitFail (r4 r5 : CmdResult) (h4 : r4.err = none) (h5 : r5.err = none) (out : String)
      (n : Int) (hn : a.noCommit = false) (out7 : String) (e7 : ExecError) :
      TailShape a revSha 5
        [Call.git (readTreeArgs (verpathOf a) (revOf a)) r4, Call.git (rmArgs (markerOf a)) r5,
          Call.git diffIndexArgs ⟨out, some (.exitError n)⟩,
          Call.git (commitArgsOf a.msg (flag.Arg a 0) revSha) ⟨out7, some e7⟩]

/-- Every way a run with a version label can go: its exit status and its calls. -/
inductive RunShape (a : Flags) : Nat → List Call → Prop
  | revFail (r0 : CmdResult) (h0 : r0.err ≠ none) :
      RunShape a 127 [Call.git (revParseArgs a) r0]
  | dirty (r0 : CmdResult) (h0 : r0.err = none) (out : String) (n : Int) :
      RunShape a 3
        [Call.git (revParseArgs a) r0, Call.git diffIndexArgs ⟨out, some (.exitError n)⟩]
  | dirtyErr (r0 : CmdResult) (h0 : r0.err = none) (out : String) :
      RunShape a 126 [Call.git (revParseArgs a) r0, Call.git diffIndexArgs ⟨out, some .other⟩]
  | noForce (r0 r1 : CmdResult) (h0 : r0.err = none) (h1 : r1.err = none) (e : StatError)
      (he : os.IsNotExist e = false) (hf : a.force = false) :
      RunShape a 4
        [Call.git (revParseArgs a) r0, Call.git diffIndexArgs r1, Call.stat (verpathOf a) e]
  | rmFail (r0 r1 r3 : CmdResult) (h0 : r0.err = none) (h1 : r1.err = none) (e : StatError)
      (he : os.IsNotExist e = false) (hf : a.force = true) (h3 : r3.err ≠ none) :
      RunShape a 127
        [Call.git (revParseArgs a) r0, Call.git diffIndexArgs r1, Call.stat (verpathOf a) e,
          Call.git (rmArgs (verpathOf a)) r3]
  | tail (r0 r1 : CmdResult) (h0 : r0.err = none) (h1 : r1.err = none) (mid : List Call)
      (hm : Mid a mid) (code : Nat) (t : List Call)
      (ht : TailShape a (TrimSpace r0.out) code t) :
      RunShape a code (Call.git (revParseArgs a) r0 :: Call.git diffIndexArgs r1 :: (mid ++ t))

/-! ## Plain paths -/

/-- A plain path element: not empty, without a separator, and neither `.` nor `..`. -/
def PlainName (n : String) : Prop :=
  n ≠ "" ∧ '/' ∉ n.data ∧ n ≠ "." ∧ n ≠ ".."

/-- A plain relative path: one or more plain elements with single separators between them,
such as `_ver` or `rel/1.2`. -/
def PlainPath (p : String) : Prop :=
  ∃ names : List String, names ≠ [] ∧ (∀ n ∈ names, PlainName n) ∧ p = joinSep names

/-! ## A model of the repository

The few `git` commands the script issues, on a repository reduced to what they read and
write: the tree of `HEAD`, the index, the files of the working tree and the revisions that
resolve to a commit.  Paths are compared as strings, which is how `git` treats the
normalised paths relative to the top of the repository that trees hold.  The text that the
commands print is not modelled, except for the commit id printed by `rev-parse`. -/

/-- A tree: the blob found at each file path. -/
abbrev Tree := List (String × String)

/-- The state of a repository.  The field `revs` gives, for each revision that resolves to
a commit, the commit id and the tree of that commit; `commitOk` tells whether a commit
command is going to succeed (it fails, for instance, when the message editor is aborted). -/
structure Repo where
  head : Tree
  index : Tree
  work : List String
  revs : List (String × String × Tree)
  commitOk : Bool
  deriving DecidableEq, Repr

/-- Whether `path` is `dir` itself or lies below it. -/
def under (dir path : String) : Bool :=
  path == dir || (dir.data ++ ['/']).isPrefixOf path.data

/-- Whether two trees hold the same entries. -/
def sameTree (t1 t2 : Tree) : Bool :=
  t1.all (fun e => t2.contains e) && t2.all (fun e => t1.contains e)

/-- Remove a given ending from a string, if it is there. -/
def dropEnding (ending s : String) : Option String :=
  if ending.data.isSuffixOf s.data then
    some ⟨s.data.take (s.data.length - ending.data.length)⟩
  else none

/-- Remove a given beginning from a string, if it is there. -/
def dropBeginning (beginning s : String) : Option String :=
  if beginning.data.isPrefixOf s.data then some ⟨s.data.drop beginning.data.length⟩ else none

/-- The commit id and the tree a revision resolves to. -/
def Repo.resolve (s : Repo) (rev : String) : Option (String × Tree) := s.revs.lookup rev

/-- The effect of `git rm -r --force --ignore-unmatch -- path`: the entries at or below the
path leave the index, and their files leave the working tree. -/
def Repo.rm (s : Repo) (path : String) : Repo :=
  { s with
    index := s.index.filter (fun e => !under path e.1)
    work := s.work.filter (fun f => !(under path f && s.index.any (fun e => e.1 == f))) }

/-- The effect of a successful `git read-tree -u --prefix=dir`: the entries of the tree are
added to the index below `dir`, and their files to the working tree. -/
def Repo.readTree (s : Repo) (dir : String) (tree : Tree) : Repo :=
  { s with
    index := s.index ++ tree.map (fun e => (dir ++ "/" ++ e.1, e.2))
    work := s.work ++ tree.map (fun e => dir ++ "/" ++ e.1) }

/-- The effect of a successful `git commit`: the new `HEAD` has the tree of the index. -/
def Repo.commit (s : Repo) : Repo := { s with head := s.index }

/-- A failed command of `git`: exit status 128. -/
def fatal (text : String) : CmdResult := ⟨text, some (.exitError 128)⟩

/-- The repository as a world.  `rev-parse --verify` prints the commit id of a revision that
resolves and fails otherwise; `diff-index --cached --exit-code HEAD` exits with status 1
when the index differs from the tree of `HEAD`; `rm` never fails; `read-tree --prefix`
refuses to overwrite entries that are already in the index; and `os.Stat` finds a path
when a file of the working tree is at or below it. -/
def gitWorld : World Repo where
  git args s :=
    match args with
    | ["rev-parse", "--verify", spec] =>
      match (dropEnding "^\x7bcommit\x7d" spec).bind s.resolve with
      | some (sha, _) => (⟨sha ++ "\n", none⟩, s)
      | none => (fatal "fatal: Needed a single revision\n", s)
    | ["diff-index", "--cached", "--exit-code", "HEAD"] =>
      if sameTree s.index s.head then (⟨"", none⟩, s) else (⟨"", some (.exitError 1)⟩, s)
    | ["rm", "-r", "--force", "--ignore-unmatch", "--", path] => (⟨"", none⟩, s.rm path)
    | ["read-tree", "-u", dest, rev] =>
      match dropBeginning "--prefix=" dest, s.resolve rev with
      | some dir, some (_, tree) =>
        if s.index.any (fun e => under dir e.1) then
          (fatal "error: Entry overlaps.  Cannot bind.\n", s)
        else
          (⟨"", none⟩, s.readTree dir tree)
      | _, _ => (fatal "fatal: not a tree object\n", s)
    | "commit" :: "--no-verify" :: _ =>
      if s.commitOk then (⟨"", none⟩, s.commit) else (⟨"", some (.exitError 1)⟩, s)
    | _ => (⟨"git: not a git command\n", some (.exitError 1)⟩, s)
  stat path s := if s.work.any (fun f => under path f) then .nil else .notExist

/-- A world without state in which `git` answers every call the same way. -/
def constWorld (res : CmdResult) : World Unit where
  git _ _ := (res, ())
  stat _ _ := .notExist

/-! ## Sample repositories and command lines -/

/-- A clean repository with one file, in which the revision `abc123` resolves to a commit
whose tree holds a file and an older snapshot directory. -/
def freshRepo : Repo :=
  { head := [("README", "b0")]
    index := [("README", "b0")]
    work := ["README"]
    revs := [("abc123", "abc123f00d", [("a.txt", "b2"), ("_ver/v0/a.txt", "b1")])]
    commitOk := true }

/-- The repository `freshRepo` after `gover v1 abc123`. -/
def snapshotRepo : Repo :=
  { head := [("README", "b0"), ("_ver/v1/a.txt", "b2")]
    index := [("README", "b0"), ("_ver/v1/a.txt", "b2")]
    work := ["README", "_ver/v1/a.txt"]
    revs := [("abc123", "abc123f00d", [("a.txt", "b2"), ("_ver/v0/a.txt", "b1")]),
             ("def456", "def456beef", [("b.txt", "b3")])]
    commitOk := true }

/-- A repository that keeps its snapshots at the top level: `v1` is both a tag and the
directory of the snapshot taken from an earlier commit of that tag. -/
def topLevelRepo : Repo :=
  { head := [("README", "b0"), ("v1/old.txt", "b1")]
    index := [("README", "b0"), ("v1/old.txt", "b1")]
    work := ["README", "v1/old.txt"]
    revs := [("v1", "abc123f00d", [("a.txt", "b2")])]
    commitOk := true }

/-- A repository like `freshRepo` in which a new file has been staged. -/
def dirtyRepo : Repo :=
  { head := [("README", "b0")]
    index := [("README", "b0"), ("new.txt", "b9")]
    work := ["README", "new.txt"]
    revs := [("abc123", "abc123f00d", [("a.txt", "b2"), ("_ver/v0/a.txt", "b1")])]
    commitOk := true }

/-- The command line `gover v1 abc123`. -/
def plainArgs : Flags :=
  { prefix_ := defaultPrefix, msg := "", noCommit := false, force := false,
    args := ["v1", "abc123"] }

/-- The command line `gover -n v1 abc123`. -/
def noCommitArgs : Flags :=
  { prefix_ := defaultPrefix, msg := "", noCommit := true, force := false,
    args := ["v1", "abc123"] }

/-- The command line `gover -m "Snapshot of v1" v1 abc123`. -/
def messageArgs : Flags :=
  { prefix_ := defaultPrefix, msg := "Snapshot of v1", noCommit := false, force := false,
    args := ["v1", "abc123"] }

/-- The command line `gover a/../b abc123`. -/
def dotdotArgs : Flags :=
  { prefix_ := defaultPrefix, msg := "", noCommit := false, force := false,
    args := ["a/../b", "abc123"] }

/-- The command line `gover -prefix . -f v1`. -/
def dotPrefixArgs : Flags :=
  { prefix_ := ".", msg := "", noCommit := false, force := true, args := ["v1"] }

/-- The command line `gover -prefix "" v2 v1`. -/
def emptyPrefixArgs : Flags :=
  { prefix_ := "", msg := "", noCommit := false, force := false, args := ["v2", "v1"] }

/-! ## Stepping through the process -/

section step
variable {σ : Type}

@[simp] theorem bind_apply {α β : Type} (m : Proc σ α) (f : α → Proc σ β) (st : PState σ) :
    (m >>= f) st = Proc.bind m f st := rfl

@[simp] theorem pure_apply {α : Type} (x : α) (st : PState σ) :
    (pure x : Proc σ α) st = .ret x st := rfl

@[simp] theorem Exit_apply {α : Type} (code : Nat) (st : PState σ) :
    (os.Exit code : Proc σ α) st = .exit code st := rfl

@[simp] theorem code_ret {α : Type} (x : α) (st : PState σ) : (Result.ret x st).code = 0 := rfl

@[simp] theorem code_exit {α : Type} (c : Nat) (st : PState σ) :
    (Result.exit c st : Result σ α).code = c := rfl

@[simp] theorem state_ret {α : Type} (x : α) (st : PState σ) : (Result.ret x st).state = st := rfl

@[simp] theorem state_exit {α : Type} (c : Nat) (st : PState σ) :
    (Result.exit c st : Result σ α).state = st := rfl

/-- The calls of `GitRun` when it returns: one more call, which had no error. -/
theorem GitRun_ret (W : World σ) (args : List String) (st st1 : PState σ) (x : String)
    (h : GitRun W args st = .ret x st1) :
    ∃ out, W.git args st.world = (⟨out, none⟩, st1.world) ∧ x = TrimSpace out ∧
      st1.calls = st.calls ++ [Call.git args ⟨out, none⟩] := by
  rcases hw : W.git args st.world with ⟨⟨out, e⟩, s1⟩
  cases e with
  | none =>
    simp [GitRun, GitCmd, Proc.bind, hw] at h
    obtain ⟨hx, hst⟩ := h
    subst hst
    exact ⟨out, rfl, hx.symm, rfl⟩
  | some e => simp [GitRun, GitCmd, Proc.bind, hw] at h

/-- The calls of `GitIndexDirty` when it returns: one more call, the index check. -/
theorem GitIndexDirty_ret (W : World σ) (st st1 : PState σ) (b : Bool)
    (h : GitIndexDirty W st = .ret b st1) :
    ∃ res, W.git diffIndexArgs st.world = (res, st1.world) ∧
      st1.calls = st.calls ++ [Call.git diffIndexArgs res] ∧
      (b = true ↔ ∃ n, res.err = some (.exitError n)) ∧ (b = false ↔ res.err = none) := by
  rcases hw : W.git diffIndexArgs st.world with ⟨⟨out, e⟩, s1⟩
  rcases e with _ | (n | _) <;>
    simp [GitIndexDirty, GitCmd, Proc.bind, diffIndexArgs] at h hw <;>
    simp [hw] at h
  · obtain ⟨hb, hst⟩ := h
    subst hst hb
    exact ⟨_, rfl, rfl, by simp, by simp⟩
  · obtain ⟨hb, hst⟩ := h
    subst hst hb
    exact ⟨_, rfl, rfl, by simp, by simp⟩

/-- The function `main` ends in `mainTail`. -/
theorem main_eq_mainTail (W : World σ) (a : Flags) :
    main W a =
      (if flag.Arg a 0 = "" then Usage
      else do
        let revSha ← GitRun W (revParseArgs a)
        if (← GitIndexDirty W) then os.Exit 3
        else do
          let err ← os.Stat W (verpathOf a)
          (if !os.IsNotExist err then
            (if a.force then GitRm W (verpathOf a) else os.Exit 4)
          else pure ())
          mainTail W a revSha) := rfl

/-- The exit status and the calls of `mainTail` from any state. -/
theorem mainTail_shape (W : World σ) (a : Flags) (revSha : String) (st : PState σ) :
    ∃ t, TailShape a revSha (mainTail W a revSha st).code t ∧
      (mainTail W a revSha st).state.calls = st.calls ++ t := by
  rcases h4 : W.git ["read-tree", "-u", "--prefix=" ++ verpathOf a, revOf a] st.world
    with ⟨⟨out4, e4⟩, s4⟩
  rcases e4 with _ | e4
  swap
  · simp [mainTail, GitRun, GitCmd, Proc.bind, h4]
    exact TailShape.readTreeFail ⟨out4, some e4⟩ (by simp)
  rcases h5 : W.git ["rm", "-r", "--force", "--ignore-unmatch", "--", markerOf a] s4
    with ⟨⟨out5, e5⟩, s5⟩
  rcases e5 with _ | e5
  swap
  · simp [mainTail, GitRun, GitRm, GitCmd, Proc.bind, h4, h5]
    exact TailShape.markerFail ⟨out4, none⟩ ⟨out5, some e5⟩ rfl (by simp)
  rcases h6 : W.git ["diff-index", "--cached", "--exit-code", "HEAD"] s5 with ⟨⟨out6, e6⟩, s6⟩
  rcases e6 with _ | (n | _)
  · simp [mainTail, GitRun, GitRm, GitCmd, GitIndexDirty, Proc.bind, h4, h5, h6]
    exact TailShape.nothing ⟨out4, none⟩ ⟨out5, none⟩ rfl rfl out6
  · cases hn : a.noCommit
    · rcases h7 : W.git (commitArgsOf a.msg (flag.Arg a 0) revSha) s6 with ⟨⟨out7, e7⟩, s7⟩
      rcases e7 with _ | e7
      · simp [mainTail, GitRun, GitRm, GitCmd, GitIndexDirty, Proc.bind, h4, h5, h6, h7, hn]
        exact TailShape.committed ⟨out4, none⟩ ⟨out5, none⟩ rfl rfl out6 n hn out7
      · simp [mainTail, GitRun, GitRm, GitCmd, GitIndexDirty, Proc.bind, h4, h5, h6, h7, hn]
        exact TailShape.commitFail ⟨out4, none⟩ ⟨out5, none⟩ rfl rfl out6 n hn out7 e7
    · simp [mainTail, GitRun, GitRm, GitCmd, GitIndexDirty, Proc.bind, h4, h5, h6, hn]
      exact TailShape.noCommit ⟨out4, none⟩ ⟨out5, none⟩ rfl rfl out6 n hn
  · simp [mainTail, GitRun, GitRm, GitCmd, GitIndexDirty, Proc.bind, h4, h5, h6]
    exact TailShape.checkErr ⟨out4, none⟩ ⟨out5, none⟩ rfl rfl out6

/-- Every run with a version label has one of the shapes of `RunShape`. -/
theorem run_shape (W : World σ) (a : Flags) (s : σ) (hver : flag.Arg a 0 ≠ "") :
    RunShape a (run W a s).exit (run W a s).calls := by
  rcases h0 : W.git ["rev-parse", "--verify", revOf a ++ "^\x7bcommit\x7d"] s with ⟨⟨out0, e0⟩, s1⟩
  rcases e0 with _ | e0
  swap
  · simp [run, main, hver, GitRun, GitCmd, Proc.bind, h0]
    exact RunShape.revFail ⟨out0, some e0⟩ (by simp)
  rcases h1 : W.git ["diff-index", "--cached", "--exit-code", "HEAD"] s1 with ⟨⟨out1, e1⟩, s2⟩
  rcases e1 with _ | (n | _)
  rotate_left
  · simp [run, main, hver, GitRun, GitCmd, GitIndexDirty, Proc.bind, h0, h1]
    exact RunShape.dirty ⟨out0, none⟩ rfl out1 n
  · simp [run, main, hver, GitRun, GitCmd, GitIndexDirty, Proc.bind, h0, h1]
    exact RunShape.dirtyErr ⟨out0, none⟩ rfl out1
  have key : ∀ (mid : List Call) (s3 : σ), Mid a mid →
      RunShape a
        (mainTail W a (TrimSpace out0) ⟨s3, Call.git (revParseArgs a) ⟨out0, none⟩ ::
          Call.git diffIndexArgs ⟨out1, none⟩ :: mid⟩).code
        (mainTail W a (TrimSpace out0) ⟨s3, Call.git (revParseArgs a) ⟨out0, none⟩ ::
          Call.git diffIndexArgs ⟨out1, none⟩ :: mid⟩).state.calls := by
    intro mid s3 hm
    obtain ⟨t, ht, hc⟩ := mainTail_shape W a (TrimSpace out0)
      ⟨s3, Call.git (revParseArgs a) ⟨out0, none⟩ :: Call.git diffIndexArgs ⟨out1, none⟩ :: mid⟩
    rw [hc]
    exact RunShape.tail ⟨out0, none⟩ ⟨out1, none⟩ rfl rfl mid hm _ t ht
  rw [run, main_eq_mainTail]
  cases hne : os.IsNotExist (W.stat (verpathOf a) s2)
  · cases hf : a.force
    · simp [hver, GitRun, GitCmd, GitIndexDirty, os.Stat, Proc.bind, revParseArgs, diffIndexArgs,
        h0, h1, hne, hf]
      exact RunShape.noForce ⟨out0, none⟩ ⟨out1, none⟩ rfl rfl _ hne hf
    · rcases h3 : W.git ["rm", "-r", "--force", "--ignore-unmatch", "--", verpathOf a] s2
        with ⟨⟨out3, e3⟩, s3⟩
      rcases e3 with _ | e3
      · simp [hver, GitRun, GitRm, GitCmd, GitIndexDirty, os.Stat, Proc.bind, revParseArgs,
          diffIndexArgs, h0, h1, h3, hne, hf]
        exact key _ s3 (Mid.forced _ ⟨out3, none⟩ hne hf rfl)
      · simp [hver, GitRun, GitRm, GitCmd, GitIndexDirty, os.Stat, Proc.bind, revParseArgs,
          diffIndexArgs, h0, h1, h3, hne, hf]
        exact RunShape.rmFail ⟨out0, none⟩ ⟨out1, none⟩ ⟨out3, some e3⟩ rfl rfl _ hne hf (by simp)
  · simp [hver, GitRun, GitCmd, GitIndexDirty, os.Stat, Proc.bind, revParseArgs, diffIndexArgs,
      h0, h1, hne]
    exact key _ s2 (Mid.absent _ hne)

/-- A run without a version label makes no call and exits with status 1. -/
theorem run_no_version (W : World σ) (a : Flags) (s : σ) (hver : flag.Arg a 0 = "") :
    run W a s = ⟨1, [], s⟩ := by
  simp [run, main, hver, Usage]

@[simp] theorem commitArgsOf_head (msg ver revSha : String) :
    (commitArgsOf msg ver revSha).head? = some "commit" := by
  unfold commitArgsOf
  split <;> rfl

theorem result_eq_of_err_none (r : CmdResult) (h : r.err = none) : r = ⟨r.out, none⟩ := by
  cases r
  simp_all

end step

/-! ## Calls and the calls after them -/

theorem suffix_forall_nil {α : Type} {Q : α → List α → Prop} :
    (∀ c post, c :: post <:+ [] → Q c post) ↔ True := by
  simp

theorem suffix_forall_cons {α : Type} {Q : α → List α → Prop} {x : α} {l : List α} :
    (∀ c post, c :: post <:+ x :: l → Q c post) ↔
      (Q x l ∧ ∀ c post, c :: post <:+ l → Q c post) := by
  constructor
  · intro h
    exact ⟨h x l (List.suffix_refl _),
      fun c post hs => h c post (List.suffix_cons_iff.2 (Or.inr hs))⟩
  · rintro ⟨h1, h2⟩ c post hs
    rcases List.suffix_cons_iff.1 hs with heq | hs
    · cases heq
      exact h1
    · exact h2 c post hs

theorem of_suffix {α : Type} {l : List α} {Q : α → List α → Prop}
    (h : ∀ c post, c :: post <:+ l → Q c post) :
    ∀ pre c post, l = pre ++ c :: post → Q c post :=
  fun pre c post hl => h c post ⟨pre, hl.symm⟩

/-! ## The path functions -/

/-- The loop of `filepath.Clean` never runs out of fuel when it starts with at least as much
fuel as there are bytes left. -/
theorem cleanLoop_isSome (fuel : Nat) :
    ∀ (path : List Char) (rooted : Bool) (out : List Char) (dotdot : Nat),
      path.length ≤ fuel → (cleanLoop fuel path rooted out dotdot).isSome = true := by
  induction fuel with
  | zero =>
    intro path rooted out dotdot h
    cases path with
    | nil => simp [cleanLoop]
    | cons c rest => simp at h
  | succ fuel ih =>
    intro path rooted out dotdot h
    cases path with
    | nil => simp [cleanLoop]
    | cons c rest =>
      have hrest : rest.length ≤ fuel := by simpa using h
      have htail : rest.tail.length ≤ fuel := by
        have := List.length_tail rest
        omega
      unfold cleanLoop
      by_cases hc : isPathSeparator c = true
      · simpa [hc] using ih _ _ _ _ hrest
      · have hdrop : ((c :: rest).dropWhile (fun x => !isPathSeparator x)).length ≤ fuel := by
          have hl := (List.dropWhile_sublist (fun x => !isPathSeparator x) (l := rest)).length_le
          simp only [Bool.not_eq_true] at hc
          simp [List.dropWhile, hc]
          omega
        simp only [hc]
        split_ifs <;>
          first | exact ih _ _ _ _ hrest | exact ih _ _ _ _ htail | exact ih _ _ _ _ hdrop

/-- The loop of `filepath.Clean` gets enough fuel from `cleanChars`: the case `none` of
`cleanChars` is never taken. -/
theorem cleanChars_fuel (c : Char) (rest : List Char) :
    (cleanLoop (c :: rest).length rest true ['/'] 1).isSome = true ∧
      (cleanLoop (c :: rest).length (c :: rest) false [] 0).isSome = true :=
  ⟨cleanLoop_isSome _ _ _ _ _ (by simp), cleanLoop_isSome _ _ _ _ _ (le_refl _)⟩

theorem takeWhile_at_separator (t : List Char) (ht : atSeparatorOrEnd t = true) :
    t.takeWhile (fun x => !isPathSeparator x) = [] ∧
      t.dropWhile (fun x => !isPathSeparator x) = t := by
  cases t with
  | nil => simp
  | cons y ys =>
    simp only [atSeparatorOrEnd] at ht
    simp [List.takeWhile, List.dropWhile, ht]

/-- One iteration of the loop of `filepath.Clean` on a plain element that is followed by a
separator or by the end of the path: the element is copied, after a separator when the
output is not empty. -/
theorem cleanLoop_plain_step (c t : List Char) (hc : c ≠ []) (hs : '/' ∉ c) (h1 : c ≠ ['.'])
    (h2 : c ≠ ['.', '.']) (ht : atSeparatorOrEnd t = true) (fuel : Nat) (out : List Char)
    (dotdot : Nat) :
    cleanLoop (fuel + 1) (c ++ t) false out dotdot =
      cleanLoop fuel t false (c.reverse ++ (if out.length != 0 then '/' :: out else out))
        dotdot := by
  obtain ⟨x, xs, rfl⟩ := List.exists_cons_of_ne_nil hc
  have hall : ∀ y ∈ x :: xs, (fun z => !isPathSeparator z) y = true := by
    intro y hy
    have : y ≠ '/' := fun h => hs (h ▸ hy)
    simp [isPathSeparator, this]
  have hx : isPathSeparator x = false := by simpa using hall x (by simp)
  obtain ⟨htake, hdrop⟩ := takeWhile_at_separator t ht
  have hcopy : cleanLoop fuel
        (((x :: xs) ++ t).dropWhile (fun z => !isPathSeparator z)) false
        ((((x :: xs) ++ t).takeWhile (fun z => !isPathSeparator z)).reverse ++
          (if out.length != 0 then '/' :: out else out)) dotdot =
      cleanLoop fuel t false ((x :: xs).reverse ++ (if out.length != 0 then '/' :: out else out))
        dotdot := by
    rw [List.takeWhile_append_of_pos hall, List.dropWhile_append_of_pos hall, htake, hdrop]
    simp
  have hdot : (x == '.' && atSeparatorOrEnd (xs ++ t)) = false := by
    cases xs with
    | nil =>
      have : x ≠ '.' := fun h => h1 (by simp [h])
      simp [this]
    | cons y ys =>
      have hy : isPathSeparator y = false := by simpa using hall y (by simp)
      simp [atSeparatorOrEnd, hy]
  have hdd : (x == '.' && (xs ++ t).head? == some '.' && atSeparatorOrEnd (xs ++ t).tail) =
      false := by
    cases xs with
    | nil =>
      have : x ≠ '.' := fun h => h1 (by simp [h])
      simp [this]
    | cons y ys =>
      cases ys with
      | nil =>
        have : ¬ (x = '.' ∧ y = '.') := fun h => h2 (by simp [h.1, h.2])
        by_cases hxd : x = '.'
        · have hyd : y ≠ '.' := fun h => this ⟨hxd, h⟩
          simp [hyd]
        · simp [hxd]
      | cons z zs =>
        have hz : isPathSeparator z = false := by simpa using hall z (by simp)
        simp [atSeparatorOrEnd, hz]
  rw [← hcopy]
  simp only [List.cons_append] at hdot hdd ⊢
  rw [cleanLoop]
  simp only [hx, hdot, hdd, Bool.false_eq_true, if_false, Bool.false_and, Bool.true_and,
    Bool.false_or, Bool.not_false]

theorem PlainName.chars {n : String} (h : PlainName n) :
    n.data ≠ [] ∧ '/' ∉ n.data ∧ n.data ≠ ['.'] ∧ n.data ≠ ['.', '.'] := by
  obtain ⟨h0, hs, h1, h2⟩ := h
  refine ⟨fun h => h0 (String.ext h), hs, fun h => h1 (String.ext h), fun h => h2 (String.ext h)⟩

theorem joinSep_cons_cons_data (n m : String) (ms : List String) :
    (joinSep (n :: m :: ms)).data = n.data ++ '/' :: (joinSep (m :: ms)).data := by
  simp [joinSep, String.data_append]

theorem joinSep_append (xs ys : List String) (hx : xs ≠ []) (hy : ys ≠ []) :
    joinSep (xs ++ ys) = joinSep xs ++ "/" ++ joinSep ys := by
  induction xs with
  | nil => exact absurd rfl hx
  | cons x xs ih =>
    cases xs with
    | nil =>
      cases ys with
      | nil => exact absurd rfl hy
      | cons y ys => simp [joinSep]
    | cons x2 xs =>
      have := ih (by simp)
      simp only [List.cons_append] at this ⊢
      simp only [joinSep, this, String.append_assoc]

/-- The loop of `filepath.Clean` copies a path made of plain elements unchanged. -/
theorem cleanLoop_plain (names : List String) (hne : names ≠ [])
    (hplain : ∀ n ∈ names, PlainName n) :
    ∀ (fuel : Nat) (out : List Char) (dotdot : Nat), (joinSep names).data.length ≤ fuel →
      cleanLoop fuel (joinSep names).data false out dotdot =
        some ((joinSep names).data.reverse ++ (if out.length != 0 then '/' :: out else out)) := by
  induction names with
  | nil => exact absurd rfl hne
  | cons n ms ih =>
    obtain ⟨hc, hs, h1, h2⟩ := (hplain n (by simp)).chars
    intro fuel out dotdot hfuel
    have hlen : 0 < n.data.length := List.length_pos.2 hc
    cases ms with
    | nil =>
      simp only [joinSep] at hfuel ⊢
      obtain ⟨f, rfl⟩ : ∃ f, fuel = f + 1 := ⟨fuel - 1, by omega⟩
      have := cleanLoop_plain_step n.data [] hc hs h1 h2 rfl f out dotdot
      rw [List.append_nil] at this
      rw [this]
      simp [cleanLoop]
    | cons m ms =>
      have ih2 := ih (by simp) (fun k hk => hplain k (by simp [hk]))
      rw [joinSep_cons_cons_data] at hfuel ⊢
      simp only [List.length_append, List.length_cons] at hfuel
      obtain ⟨f, rfl⟩ : ∃ f, fuel = f + 1 + 1 := ⟨fuel - 2, by omega⟩
      rw [cleanLoop_plain_step n.data _ hc hs h1 h2 (by simp [atSeparatorOrEnd, isPathSeparator])]
      rw [cleanLoop]
      simp only [isPathSeparator, beq_self_eq_true, if_true]
      rw [ih2 f _ dotdot (by omega)]
      have hn : n.data.reverse ≠ [] := by simpa using hc
      have : (n.data.reverse ++ if (out.length != 0) = true then '/' :: out else out).length ≠ 0 := by
        rw [List.length_append, List.length_reverse]
        omega
      rw [if_pos (by simpa using this)]
      simp

/-- The function `filepath.Clean` leaves a plain relative path as it is. -/
theorem Clean_plain (names : List String) (hne : names ≠ [])
    (hplain : ∀ n ∈ names, PlainName n) :
    filepath.Clean (joinSep names) = joinSep names := by
  have hloop := cleanLoop_plain names hne hplain (joinSep names).data.length [] 0 (le_refl _)
  apply String.ext
  simp only [filepath.Clean]
  cases names with
  | nil => exact absurd rfl hne
  | cons n ms =>
    obtain ⟨hc, hs, -, -⟩ := (hplain n (by simp)).chars
    obtain ⟨x, xs, hx⟩ := List.exists_cons_of_ne_nil hc
    have hsep : isPathSeparator x = false := by
      have : x ≠ '/' := fun h => hs (by simp [hx, h])
      simp [isPathSeparator, this]
    have hdata : ∃ rest, (joinSep (n :: ms)).data = x :: rest := by
      cases ms with
      | nil => exact ⟨xs, by simp [joinSep, hx]⟩
      | cons m ms => exact ⟨_, by rw [joinSep_cons_cons_data, hx]; rfl⟩
    obtain ⟨rest, hrest⟩ := hdata
    rw [hrest] at hloop ⊢
    simp only [cleanChars, hsep, Bool.false_eq_true, if_false, hloop]
    simp

/-- The function `filepath.Join` on a plain prefix and a plain version label is their
concatenation with one separator. -/
theorem Join_plain (p v : String) (hp : PlainPath p) (hv : PlainPath v) :
    filepath.Join [p, v] = p ++ "/" ++ v := by
  obtain ⟨np, hnp, hpp, rfl⟩ := hp
  obtain ⟨nv, hnv, hpv, rfl⟩ := hv
  have hne : joinSep np ≠ "" := by
    cases np with
    | nil => exact absurd rfl hnp
    | cons n ms =>
      obtain ⟨hc, -, -, -⟩ := (hpp n (by simp)).chars
      intro h
      have hd := congrArg String.data h
      cases ms with
      | nil => exact hc (by simpa [joinSep] using hd)
      | cons m ms =>
        rw [joinSep_cons_cons_data] at hd
        simp at hd
  simp only [filepath.Join, hne, if_false, joinSep]
  rw [← joinSep_append np nv hnp hnv]
  exact Clean_plain (np ++ nv) (by simp [hnp]) (by
    intro n hn
    rcases List.mem_append.1 hn with h | h
    · exact hpp n h
    · exact hpv n h)

/-! ## The repository model -/

/-- A file placed below a directory by the import lies below that directory. -/
theorem under_child (dir f : String) : under dir (dir ++ "/" ++ f) = true := by
  have h : (dir.data ++ ['/']).isPrefixOf (dir ++ "/" ++ f).data = true := by
    rw [List.isPrefixOf_iff_prefix]
    exact ⟨f.data, by simp [String.data_append]⟩
  simp [under, h]

section support
variable {σ : Type}

/-- For a plain prefix and a plain version label the snapshot path is the two joined by one
separator, and the nested marker path is the snapshot path followed by the separator and the
prefix: a path strictly below the snapshot path. -/
theorem marker_below_snapshot_path (a : Flags) (hp : PlainPath a.prefix_)
    (hv : PlainPath (flag.Arg a 0)) :
    verpathOf a = a.prefix_ ++ "/" ++ flag.Arg a 0 ∧
    markerOf a = verpathOf a ++ "/" ++ a.prefix_ ∧
    markerOf a ≠ verpathOf a ∧
    under (verpathOf a) (markerOf a) = true := by
  have hS : verpathOf a = a.prefix_ ++ "/" ++ flag.Arg a 0 := Join_plain _ _ hp hv
  have hSplain : PlainPath (verpathOf a) := by
    obtain ⟨np, hnp, hpp, hpe⟩ := hp
    obtain ⟨nv, hnv, hpv, hve⟩ := hv
    refine ⟨np ++ nv, by simp [hnp], ?_, ?_⟩
    · intro n hn
      rcases List.mem_append.1 hn with h | h
      · exact hpp n h
      · exact hpv n h
    · rw [hS, hpe, hve, joinSep_append np nv hnp hnv]
  have hM : markerOf a = verpathOf a ++ "/" ++ a.prefix_ := Join_plain _ _ hSplain hp
  have hdata : (markerOf a).data = (verpathOf a).data ++ '/' :: a.prefix_.data := by
    rw [hM]
    simp [String.data_append]
  refine ⟨hS, hM, ?_, ?_⟩
  · intro h
    have := congrArg List.length (congrArg String.data h)
    rw [hdata] at this
    simp at this
  · have hpre : ((verpathOf a).data ++ ['/']).isPrefixOf (markerOf a).data = true := by
      rw [List.isPrefixOf_iff_prefix, hdata]
      exact ⟨a.prefix_.data, by simp⟩
    simp [under, hpre]

theorem commitArgsOf_ne_rmArgs (msg ver revSha path : String) :
    commitArgsOf msg ver revSha ≠ ["rm", "-r", "--force", "--ignore-unmatch", "--", path] := by
  intro h
  have := congrArg List.head? h
  simp at this

set_option maxHeartbeats 1000000 in
/-- When the nested marker path differs from the snapshot path, the removal of the snapshot
path is issued at most once in a run: not at all when the existence check reports the path
missing, and otherwise, with the force flag, right after the existence check, with no
removal or import before it and no second removal of the snapshot path after it. -/
theorem forced_removal_once (W : World σ) (a : Flags) (s : σ) (hver : flag.Arg a 0 ≠ "")
    (hne : markerOf a ≠ verpathOf a) (e : StatError)
    (hstat : Call.stat (verpathOf a) e ∈ (run W a s).calls) :
    (os.IsNotExist e = true →
      ∀ c ∈ (run W a s).calls, ∀ r, c ≠ Call.git (rmArgs (verpathOf a)) r) ∧
    (os.IsNotExist e = false → a.force = true →
      ∃ pre r3 rest, (run W a s).calls =
          pre ++ Call.stat (verpathOf a) e :: Call.git (rmArgs (verpathOf a)) r3 :: rest ∧
        (∀ c ∈ pre, c.command ≠ some "rm" ∧ c.command ≠ some "read-tree") ∧
        (∀ c ∈ rest, ∀ r, c ≠ Call.git (rmArgs (verpathOf a)) r)) := by
  have h := run_shape W a s hver
  revert hstat
  generalize (run W a s).exit = code at h ⊢
  generalize (run W a s).calls = calls at h ⊢
  intro hstat
  cases h with
  | revFail r0 h0 => simp [revParseArgs] at hstat
  | dirty r0 h0 out n => simp [revParseArgs, diffIndexArgs] at hstat
  | dirtyErr r0 h0 out => simp [revParseArgs, diffIndexArgs] at hstat
  | noForce r0 r1 h0 h1 e1 he hf =>
    have : e = e1 := by simpa using hstat
    subst this
    simp [he, hf]
  | rmFail r0 r1 r3 h0 h1 e1 he hf h3 =>
    have : e = e1 := by simpa using hstat
    subst this
    refine ⟨by simp [he], fun _ _ => ⟨[_, _], r3, [], rfl, ?_, by simp⟩⟩
    simp [Call.command, revParseArgs, diffIndexArgs]
  | tail r0 r1 h0 h1 mid hm code t ht =>
    cases hm with
    | absent e1 he =>
      have : e = e1 := by
        cases ht <;> simpa [readTreeArgs, rmArgs, diffIndexArgs] using hstat
      subst this
      refine ⟨fun _ => ?_, by simp [he]⟩
      cases ht <;>
        simp [commitArgsOf_ne_rmArgs, revParseArgs, diffIndexArgs, readTreeArgs, rmArgs, hne]
    | forced e1 r he hf hr =>
      have : e = e1 := by
        cases ht <;> simpa [readTreeArgs, rmArgs, diffIndexArgs] using hstat
      subst this
      refine ⟨by simp [he], fun _ _ => ⟨[_, _], r, t, rfl, ?_, ?_⟩⟩
      · simp [Call.command, revParseArgs, diffIndexArgs]
      · cases ht <;>
          simp [commitArgsOf_ne_rmArgs, revParseArgs, diffIndexArgs, readTreeArgs, rmArgs, hne]

end support

/-! ## The claims -/

section claims
variable {σ : Type}

/-- C2: for every command line with a non-empty version label whose revision resolves
(`GitRun` returns), if the first `GitIndexDirty` check reports staged changes (returns
`true`), then `main` exits with status 3 in the state that check left, and no call of the
run is a git `rm`, `read-tree` or `commit`; the flags are arbitrary. -/
theorem dirty_index_exits_3 (W : World σ) (a : Flags) (s : σ) (revSha : String)
    (st1 st2 : PState σ) (hver : flag.Arg a 0 ≠ "")
    (hrev : GitRun W ["rev-parse", "--verify", revOf a ++ "^\x7bcommit\x7d"] ⟨s, []⟩ =
      .ret revSha st1)
    (hdirty : GitIndexDirty W st1 = .ret true st2) :
    main W a ⟨s, []⟩ = .exit 3 st2 ∧ (run W a s).exit = 3 ∧
      (run W a s).world = st2.world ∧ ∀ c ∈ (run W a s).calls, c.isMutating = false := by
  have hm : main W a ⟨s, []⟩ = .exit 3 st2 := by
    simp [main, hver, Proc.bind, hrev, hdirty]
  obtain ⟨out, -, -, hc1⟩ := GitRun_ret W _ _ _ _ hrev
  obtain ⟨res, -, hc2, -⟩ := GitIndexDirty_ret W _ _ _ hdirty
  refine ⟨hm, by simp [run, hm], by simp [run, hm], ?_⟩
  simp [run, hm, hc2, hc1, Call.isMutating, Call.command, diffIndexArgs]

/-- C2, witness: `gover v1 abc123` with a staged file. -/
theorem dirty_index_exits_3_witness :
    (run gitWorld plainArgs dirtyRepo).exit = 3 ∧
      ∀ c ∈ (run gitWorld plainArgs dirtyRepo).calls, c.isMutating = false :=
  have h := dirty_index_exits_3 gitWorld plainArgs dirtyRepo "abc123f00d"
    ⟨dirtyRepo, [Call.git ["rev-parse", "--verify", "abc123^\x7bcommit\x7d"]
      ⟨"abc123f00d\n", none⟩]⟩
    ⟨dirtyRepo, [Call.git ["rev-parse", "--verify", "abc123^\x7bcommit\x7d"]
      ⟨"abc123f00d\n", none⟩,
      Call.git ["diff-index", "--cached", "--exit-code", "HEAD"] ⟨"", some (.exitError 1)⟩]⟩
    (by decide) rfl rfl
  ⟨h.2.1, h.2.2.2⟩

/-- C3: for every command line with a non-empty version label, a revision that resolves
and a clean index (`GitIndexDirty` returns `false`), if `os.Stat` of the snapshot path does
not report that the path is missing and the force flag is not set, the run exits with
status 4, its last call is that existence check, the world is as the index check left it,
and no call of the run is a git `rm`, `read-tree` or `commit`. -/
theorem existing_path_without_force (W : World σ) (a : Flags) (s : σ) (revSha : String)
    (st1 st2 : PState σ) (hver : flag.Arg a 0 ≠ "")
    (hrev : GitRun W ["rev-parse", "--verify", revOf a ++ "^\x7bcommit\x7d"] ⟨s, []⟩ =
      .ret revSha st1)
    (hclean : GitIndexDirty W st1 = .ret false st2)
    (hexists : os.IsNotExist (W.stat (filepath.Join [a.prefix_, flag.Arg a 0]) st2.world) = false)
    (hforce : a.force = false) :
    (run W a s).exit = 4 ∧ (run W a s).world = st2.world ∧
      (run W a s).calls = st2.calls ++ [Call.stat (filepath.Join [a.prefix_, flag.Arg a 0])
        (W.stat (filepath.Join [a.prefix_, flag.Arg a 0]) st2.world)] ∧
      ∀ c ∈ (run W a s).calls, c.isMutating = false := by
  have hm : main W a ⟨s, []⟩ = .exit 4 ⟨st2.world, st2.calls ++
      [Call.stat (filepath.Join [a.prefix_, flag.Arg a 0])
        (W.stat (filepath.Join [a.prefix_, flag.Arg a 0]) st2.world)]⟩ := by
    simp [main, hver, Proc.bind, hrev, hclean, os.Stat, hexists, hforce]
  obtain ⟨out, -, -, hc1⟩ := GitRun_ret W _ _ _ _ hrev
  obtain ⟨res, -, hc2, -⟩ := GitIndexDirty_ret W _ _ _ hclean
  refine ⟨by simp [run, hm], by simp [run, hm], by simp [run, hm], ?_⟩
  simp [run, hm, hc2, hc1, Call.isMutating, Call.command, diffIndexArgs]

/-- C3, witness: `gover v1 abc123` when `_ver/v1` is already there. -/
theorem existing_path_without_force_witness :
    (run gitWorld plainArgs snapshotRepo).exit = 4 ∧
      (run gitWorld plainArgs snapshotRepo).world = snapshotRepo ∧
      ∀ c ∈ (run gitWorld plainArgs snapshotRepo).calls, c.isMutating = false :=
  have h := existing_path_without_force gitWorld plainArgs snapshotRepo "abc123f00d"
    ⟨snapshotRepo, [Call.git ["rev-parse", "--verify", "abc123^\x7bcommit\x7d"]
      ⟨"abc123f00d\n", none⟩]⟩
    ⟨snapshotRepo, [Call.git ["rev-parse", "--verify", "abc123^\x7bcommit\x7d"]
      ⟨"abc123f00d\n", none⟩,
      Call.git ["diff-index", "--cached", "--exit-code", "HEAD"] ⟨"", none⟩]⟩
    (by decide) rfl rfl (by decide) rfl
  ⟨h.1, h.2.1, h.2.2.2⟩

/-- C4, the failing input: `gover -prefix . -f v1` on a repository that keeps its snapshots
at the top level.  The removal of the snapshot path `v1` is issued twice, before and after
the import, and the commit holds nothing at `v1` although the tree of the revision holds
`a.txt`. -/
theorem forced_removal_issued_twice :
    topLevelRepo.resolve (revOf dotPrefixArgs) = some ("abc123f00d", [("a.txt", "b2")]) ∧
    (run gitWorld dotPrefixArgs topLevelRepo).exit = 0 ∧
    (run gitWorld dotPrefixArgs topLevelRepo).calls =
      [Call.git ["rev-parse", "--verify", "v1^\x7bcommit\x7d"] ⟨"abc123f00d\n", none⟩,
        Call.git ["diff-index", "--cached", "--exit-code", "HEAD"] ⟨"", none⟩,
        Call.stat "v1" .nil,
        Call.git ["rm", "-r", "--force", "--ignore-unmatch", "--", "v1"] ⟨"", none⟩,
        Call.git ["read-tree", "-u", "--prefix=v1", "v1"] ⟨"", none⟩,
        Call.git ["rm", "-r", "--force", "--ignore-unmatch", "--", "v1"] ⟨"", none⟩,
        Call.git ["diff-index", "--cached", "--exit-code", "HEAD"] ⟨"", some (.exitError 1)⟩,
        Call.git ["commit", "--no-verify", "--edit", "-m", "Update ver v1 to abc123f00d"]
          ⟨"", none⟩] ∧
    (run gitWorld dotPrefixArgs topLevelRepo).world.head = [("README", "b0")] := by
  decide

set_option maxHeartbeats 1000000 in
/-- C5: in every run, every call of `git commit` has, when the message flag is empty, the
arguments `commit --no-verify --edit -m "Update ver <version> to <sha>"`, where `<sha>` is
the trimmed output of the first call of the run, `git rev-parse --verify <rev>^{commit}`,
which succeeded; and when a message was given, the arguments
`commit --no-verify -m <message>`, without `--edit`.  The revision `<rev>` is the version
label when there is no second positional argument, and the second positional argument when
it is given and not empty. -/
theorem commit_arguments (W : World σ) (a : Flags) (s : σ) :
    (∀ args res, Call.git args res ∈ (run W a s).calls → args.head? = some "commit" →
      ∃ out, (run W a s).calls.head? =
          some (Call.git ["rev-parse", "--verify", revOf a ++ "^\x7bcommit\x7d"] ⟨out, none⟩) ∧
        args = if a.msg = "" then
            ["commit", "--no-verify", "--edit", "-m",
              "Update ver " ++ flag.Arg a 0 ++ " to " ++ TrimSpace out]
          else ["commit", "--no-verify", "-m", a.msg]) ∧
    (a.args.length ≤ 1 → revOf a = flag.Arg a 0) ∧
    (∀ r, a.args[1]? = some r → r ≠ "" → revOf a = r) := by
  refine ⟨?_, ?_, ?_⟩
  · by_cases hver : flag.Arg a 0 = ""
    · simp [run_no_version W a s hver]
    have h := run_shape W a s hver
    generalize (run W a s).exit = code at h ⊢
    generalize (run W a s).calls = calls at h ⊢
    cases h with
    | tail r0 r1 h0 h1 mid hm code t ht =>
      rw [result_eq_of_err_none r0 h0]
      cases hm <;> cases ht <;>
        simp [revParseArgs, diffIndexArgs, rmArgs, readTreeArgs, or_imp, forall_and, commitArgsOf]
    | _ => simp [revParseArgs, diffIndexArgs, rmArgs, readTreeArgs, or_imp, forall_and]
  · intro h
    have : a.args[1]? = none := by simp [h]
    simp [revOf, flag.Arg, List.getD, this]
  · intro r hr hne
    simp [revOf, flag.Arg, List.getD, hr, hne]

/-- C5, witness: `gover v1 abc123` commits with the message `Update ver v1 to` followed by
the resolved commit id, and `gover -m "Snapshot of v1" v1 abc123` with the given message. -/
theorem commit_arguments_witness :
    (∃ out, (run gitWorld plainArgs freshRepo).calls.head? =
        some (Call.git ["rev-parse", "--verify", revOf plainArgs ++ "^\x7bcommit\x7d"]
          ⟨out, none⟩) ∧
      ["commit", "--no-verify", "--edit", "-m", "Update ver v1 to abc123f00d"] =
        if plainArgs.msg = "" then
          ["commit", "--no-verify", "--edit", "-m",
            "Update ver " ++ flag.Arg plainArgs 0 ++ " to " ++ TrimSpace out]
        else ["commit", "--no-verify", "-m", plainArgs.msg]) ∧
    (∃ out, (run gitWorld messageArgs freshRepo).calls.head? =
        some (Call.git ["rev-parse", "--verify", revOf messageArgs ++ "^\x7bcommit\x7d"]
          ⟨out, none⟩) ∧
      ["commit", "--no-verify", "-m", "Snapshot of v1"] =
        if messageArgs.msg = "" then
          ["commit", "--no-verify", "--edit", "-m",
            "Update ver " ++ flag.Arg messageArgs 0 ++ " to " ++ TrimSpace out]
        else ["commit", "--no-verify", "-m", messageArgs.msg]) :=
  ⟨(commit_arguments gitWorld plainArgs freshRepo).1
      ["commit", "--no-verify", "--edit", "-m", "Update ver v1 to abc123f00d"] ⟨"", none⟩
      (by decide) rfl,
    (commit_arguments gitWorld messageArgs freshRepo).1
      ["commit", "--no-verify", "-m", "Snapshot of v1"] ⟨"", none⟩ (by decide) rfl⟩

set_option maxHeartbeats 1000000 in
/-- C6: for every run that reaches the final index check, identified as the call of
`git diff-index` that follows the removal of the nested marker, a call of `git commit` is
made if and only if that check reports staged changes (an exit error) and `-n` is not set;
and when the check reports a clean index, or reports staged changes while `-n` is set, the
check is the last call of the run and the exit status is 0. -/
theorem commit_iff_staged_changes (W : World σ) (a : Flags) (s : σ)
    (pre post : List Call) (r5 r6 : CmdResult)
    (hreach : (run W a s).calls = pre ++
      Call.git ["rm", "-r", "--force", "--ignore-unmatch", "--",
          filepath.Join [filepath.Join [a.prefix_, flag.Arg a 0], a.prefix_]] r5 ::
        Call.git ["diff-index", "--cached", "--exit-code", "HEAD"] r6 :: post) :
    ((∃ c ∈ (run W a s).calls, c.command = some "commit") ↔
      ((∃ n, r6.err = some (.exitError n)) ∧ a.noCommit = false)) ∧
    ((r6.err = none ∨ ((∃ n, r6.err = some (.exitError n)) ∧ a.noCommit = true)) →
      post = [] ∧ (run W a s).exit = 0) := by
  by_cases hver : flag.Arg a 0 = ""
  · simp [run_no_version W a s hver] at hreach
  have h := run_shape W a s hver
  revert hreach
  generalize (run W a s).exit = code at h ⊢
  generalize (run W a s).calls = calls at h ⊢
  intro hreach
  revert r5 r6 post
  suffices hq : ∀ pre c post1, calls = pre ++ c :: post1 → ∀ (post : List Call) (r5 r6 : CmdResult),
      c = Call.git ["rm", "-r", "--force", "--ignore-unmatch", "--",
          filepath.Join [filepath.Join [a.prefix_, flag.Arg a 0], a.prefix_]] r5 →
      post1 = Call.git ["diff-index", "--cached", "--exit-code", "HEAD"] r6 :: post →
      ((∃ c ∈ calls, c.command = some "commit") ↔
        ((∃ n, r6.err = some (.exitError n)) ∧ a.noCommit = false)) ∧
      ((r6.err = none ∨ ((∃ n, r6.err = some (.exitError n)) ∧ a.noCommit = true)) →
        post = [] ∧ code = 0) by
    intro post r5 r6 hreach
    exact hq pre _ _ hreach post r5 r6 rfl rfl
  clear pre
  apply of_suffix
  cases h with
  | tail r0 r1 h0 h1 mid hm code t ht =>
    cases hm <;> cases ht <;>
      simp only [List.cons_append, List.nil_append, suffix_forall_cons, suffix_forall_nil] <;>
      simp [revParseArgs, diffIndexArgs, rmArgs, readTreeArgs, markerOf, verpathOf, Call.command, *]
  | _ =>
    simp only [suffix_forall_cons, suffix_forall_nil]
    simp [revParseArgs, diffIndexArgs, rmArgs, readTreeArgs]

/-- C6, witness: the final check of `gover v1 abc123` reports staged changes and the commit
follows; that of `gover -n v1 abc123` reports them too and the run ends there. -/
theorem commit_iff_staged_changes_witness :
    (((∃ c ∈ (run gitWorld plainArgs freshRepo).calls, c.command = some "commit") ↔
        ((∃ n, (⟨"", some (.exitError 1)⟩ : CmdResult).err = some (.exitError n)) ∧
          plainArgs.noCommit = false)) ∧
      (((⟨"", some (.exitError 1)⟩ : CmdResult).err = none ∨
          ((∃ n, (⟨"", some (.exitError 1)⟩ : CmdResult).err = some (.exitError n)) ∧
            plainArgs.noCommit = true)) →
        [Call.git ["commit", "--no-verify", "--edit", "-m", "Update ver v1 to abc123f00d"]
          ⟨"", none⟩] = [] ∧ (run gitWorld plainArgs freshRepo).exit = 0)) ∧
    (([] : List Call) = [] ∧ (run gitWorld noCommitArgs freshRepo).exit = 0) :=
  ⟨commit_iff_staged_changes gitWorld plainArgs freshRepo
      [Call.git ["rev-parse", "--verify", "abc123^\x7bcommit\x7d"] ⟨"abc123f00d\n", none⟩,
        Call.git ["diff-index", "--cached", "--exit-code", "HEAD"] ⟨"", none⟩,
        Call.stat "_ver/v1" .notExist,
        Call.git ["read-tree", "-u", "--prefix=_ver/v1", "abc123"] ⟨"", none⟩]
      [Call.git ["commit", "--no-verify", "--edit", "-m", "Update ver v1 to abc123f00d"]
        ⟨"", none⟩]
      ⟨"", none⟩ ⟨"", some (.exitError 1)⟩ (by decide),
    (commit_iff_staged_changes gitWorld noCommitArgs freshRepo
      [Call.git ["rev-parse", "--verify", "abc123^\x7bcommit\x7d"] ⟨"abc123f00d\n", none⟩,
        Call.git ["diff-index", "--cached", "--exit-code", "HEAD"] ⟨"", none⟩,
        Call.stat "_ver/v1" .notExist,
        Call.git ["read-tree", "-u", "--prefix=_ver/v1", "abc123"] ⟨"", none⟩]
      []
      ⟨"", none⟩ ⟨"", some (.exitError 1)⟩ (by decide)).2 (Or.inr ⟨⟨1, rfl⟩, rfl⟩)⟩

/-- C7 (amended): `GitIndexDirty` distinguishes three outcomes of
`git diff-index --cached --exit-code HEAD`: no error means clean (it returns `false`), an
exit error with any status means staged changes (it returns `true`), and an error that is
not an exit error ends the process with exit status 126.  In each case the call is
recorded and the world is the one the command left. -/
theorem index_check_outcomes (W : World σ) (st : PState σ) (res : CmdResult) (s1 : σ)
    (h : W.git ["diff-index", "--cached", "--exit-code", "HEAD"] st.world = (res, s1)) :
    (res.err = none → GitIndexDirty W st =
      .ret false ⟨s1, st.calls ++ [Call.git ["diff-index", "--cached", "--exit-code", "HEAD"] res]⟩) ∧
    (∀ n, res.err = some (.exitError n) → GitIndexDirty W st =
      .ret true ⟨s1, st.calls ++ [Call.git ["diff-index", "--cached", "--exit-code", "HEAD"] res]⟩) ∧
    (res.err = some .other → GitIndexDirty W st =
      .exit 126 ⟨s1, st.calls ++ [Call.git ["diff-index", "--cached", "--exit-code", "HEAD"] res]⟩) := by
  refine ⟨fun he => ?_, fun n he => ?_, fun he => ?_⟩ <;>
    simp [GitIndexDirty, GitCmd, Proc.bind, h, he]

/-- C7, witness: the index check on a repository with a staged file and on a clean one. -/
theorem index_check_outcomes_witness :
    GitIndexDirty gitWorld ⟨dirtyRepo, []⟩ =
        .ret true ⟨dirtyRepo, [] ++ [Call.git ["diff-index", "--cached", "--exit-code", "HEAD"]
          ⟨"", some (.exitError 1)⟩]⟩ ∧
      GitIndexDirty gitWorld ⟨freshRepo, []⟩ =
        .ret false ⟨freshRepo, [] ++ [Call.git ["diff-index", "--cached", "--exit-code", "HEAD"]
          ⟨"", none⟩]⟩ :=
  ⟨(index_check_outcomes gitWorld ⟨dirtyRepo, []⟩ ⟨"", some (.exitError 1)⟩ dirtyRepo rfl).2.1
      1 rfl,
    (index_check_outcomes gitWorld ⟨freshRepo, []⟩ ⟨"", none⟩ freshRepo rfl).1 rfl⟩

/-- C7, counterexample: when `git diff-index` exits with status 128, `GitIndexDirty`
returns `true`; the process does not end with exit status 126. -/
theorem index_check_status_128 :
    (constWorld (fatal "fatal: bad object HEAD\n")).git
        ["diff-index", "--cached", "--exit-code", "HEAD"] () =
      (⟨"fatal: bad object HEAD\n", some (.exitError 128)⟩, ()) ∧
    GitIndexDirty (constWorld (fatal "fatal: bad object HEAD\n")) ⟨(), []⟩ =
      .ret true ⟨(), [Call.git ["diff-index", "--cached", "--exit-code", "HEAD"]
        (fatal "fatal: bad object HEAD\n")]⟩ ∧
    (GitIndexDirty (constWorld (fatal "fatal: bad object HEAD\n")) ⟨(), []⟩).code ≠ 126 := by
  refine ⟨rfl, rfl, ?_⟩
  decide

set_option maxHeartbeats 1000000 in
/-- C8 (amended): for every prefix and every non-empty version label, the path of every
existence check of the run, the `--prefix=` argument of every `read-tree` call and the path
of an `rm` call that follows the existence check are one and the same string
`filepath.Join(prefix, version)`: the cleaned form of `prefix/version`, or of the version
label alone when the prefix is empty.  It is the prefix, the separator and the version
label verbatim when both are plain relative paths. -/
theorem snapshot_path_is_cleaned_join (W : World σ) (a : Flags) (s : σ)
    (hver : flag.Arg a 0 ≠ "") :
    (∀ path e, Call.stat path e ∈ (run W a s).calls →
      path = filepath.Join [a.prefix_, flag.Arg a 0]) ∧
    (∀ args res, Call.git args res ∈ (run W a s).calls → args.head? = some "read-tree" →
      args = ["read-tree", "-u", "--prefix=" ++ filepath.Join [a.prefix_, flag.Arg a 0],
        revOf a]) ∧
    (∀ pre path e args res post,
      (run W a s).calls = pre ++ Call.stat path e :: Call.git args res :: post →
      args.head? = some "rm" →
      args = ["rm", "-r", "--force", "--ignore-unmatch", "--",
        filepath.Join [a.prefix_, flag.Arg a 0]]) ∧
    filepath.Join [a.prefix_, flag.Arg a 0] =
      (if a.prefix_ = "" then filepath.Clean (flag.Arg a 0)
        else filepath.Clean (a.prefix_ ++ "/" ++ flag.Arg a 0)) ∧
    (PlainPath a.prefix_ → PlainPath (flag.Arg a 0) →
      filepath.Join [a.prefix_, flag.Arg a 0] = a.prefix_ ++ "/" ++ flag.Arg a 0) := by
  refine ⟨?_, ?_, ?_, ?_, Join_plain _ _⟩
  · have h := run_shape W a s hver
    generalize (run W a s).exit = code at h ⊢
    generalize (run W a s).calls = calls at h ⊢
    cases h with
    | tail r0 r1 h0 h1 mid hm code t ht =>
      cases hm <;> cases ht <;> simp [verpathOf]
    | _ => simp [verpathOf]
  · have h := run_shape W a s hver
    generalize (run W a s).exit = code at h ⊢
    generalize (run W a s).calls = calls at h ⊢
    cases h with
    | tail r0 r1 h0 h1 mid hm code t ht =>
      cases hm <;> cases ht <;>
        simp [revParseArgs, diffIndexArgs, rmArgs, readTreeArgs, verpathOf, or_imp, forall_and]
    | _ => simp [revParseArgs, diffIndexArgs, rmArgs, readTreeArgs, or_imp, forall_and]
  · have h := run_shape W a s hver
    generalize (run W a s).exit = code at h ⊢
    generalize (run W a s).calls = calls at h ⊢
    suffices hq : ∀ pre c post1, calls = pre ++ c :: post1 →
        ∀ (path : String) (e : StatError) (args : List String) (res : CmdResult)
          (post : List Call), c = Call.stat path e → post1 = Call.git args res :: post →
          args.head? = some "rm" →
          args = ["rm", "-r", "--force", "--ignore-unmatch", "--",
            filepath.Join [a.prefix_, flag.Arg a 0]] by
      intro pre path e args res post hc
      exact hq pre _ _ hc path e args res post rfl rfl
    apply of_suffix
    cases h with
    | tail r0 r1 h0 h1 mid hm code t ht =>
      cases hm <;> cases ht <;>
        simp only [List.cons_append, List.nil_append, suffix_forall_cons, suffix_forall_nil] <;>
        simp [revParseArgs, diffIndexArgs, rmArgs, readTreeArgs, verpathOf] <;>
        intros <;> subst_vars <;> simp at *
    | _ =>
      simp only [suffix_forall_cons, suffix_forall_nil]
      simp [revParseArgs, diffIndexArgs, rmArgs, readTreeArgs, verpathOf] <;>
        intros <;> subst_vars <;> simp at *
  · by_cases hp : a.prefix_ = ""
    · simp [filepath.Join, hp, hver, joinSep]
    · simp [filepath.Join, hp, joinSep]

/-- C8, witness: for `gover v1 abc123` the snapshot path is `_ver/v1`. -/
theorem snapshot_path_is_cleaned_join_witness :
    filepath.Join [plainArgs.prefix_, flag.Arg plainArgs 0] =
      plainArgs.prefix_ ++ "/" ++ flag.Arg plainArgs 0 :=
  (snapshot_path_is_cleaned_join gitWorld plainArgs freshRepo (by decide)).2.2.2.2
    ⟨["_ver"], by simp, by simp [PlainName], rfl⟩
    ⟨["v1"], by simp, by simp [PlainName], rfl⟩

/-- C8, counterexample: the version label `a/../b` is not used verbatim, the snapshot path
is `_ver/b`; a trailing separator is dropped; and with an empty prefix there is no
separator in front of the label. -/
theorem join_cleans_version :
    filepath.Join ["_ver", "a/../b"] = "_ver/b" ∧
    filepath.Join ["_ver", "a/../b"] ≠ "_ver" ++ "/" ++ "a/../b" ∧
    filepath.Join ["_ver", "v1/"] ≠ "_ver" ++ "/" ++ "v1/" ∧
    filepath.Join ["", "v1"] ≠ "" ++ "/" ++ "v1" ∧
    (run gitWorld dotdotArgs freshRepo).calls =
      [Call.git ["rev-parse", "--verify", "abc123^\x7bcommit\x7d"] ⟨"abc123f00d\n", none⟩,
        Call.git ["diff-index", "--cached", "--exit-code", "HEAD"] ⟨"", none⟩,
        Call.stat "_ver/b" .notExist,
        Call.git ["read-tree", "-u", "--prefix=_ver/b", "abc123"] ⟨"", none⟩,
        Call.git ["rm", "-r", "--force", "--ignore-unmatch", "--", "_ver/b/_ver"] ⟨"", none⟩,
        Call.git ["diff-index", "--cached", "--exit-code", "HEAD"] ⟨"", some (.exitError 1)⟩,
        Call.git ["commit", "--no-verify", "--edit", "-m", "Update ver a/../b to abc123f00d"]
          ⟨"", none⟩] := by
  decide

/-- C10, the failing input: with the prefix `.` or the empty prefix the nested marker path
is the snapshot path itself, and `gover -prefix "" v2 v1` removes the snapshot it has just
imported: the run ends with nothing to commit and no file under `v2`. -/
theorem marker_is_snapshot_path :
    filepath.Join [filepath.Join [".", "v1"], "."] = filepath.Join [".", "v1"] ∧
    filepath.Join [filepath.Join ["", "v2"], ""] = filepath.Join ["", "v2"] ∧
    (run gitWorld emptyPrefixArgs topLevelRepo).exit = 0 ∧
    (run gitWorld emptyPrefixArgs topLevelRepo).calls =
      [Call.git ["rev-parse", "--verify", "v1^\x7bcommit\x7d"] ⟨"abc123f00d\n", none⟩,
        Call.git ["diff-index", "--cached", "--exit-code", "HEAD"] ⟨"", none⟩,
        Call.stat "v2" .notExist,
        Call.git ["read-tree", "-u", "--prefix=v2", "v1"] ⟨"", none⟩,
        Call.git ["rm", "-r", "--force", "--ignore-unmatch", "--", "v2"] ⟨"", none⟩,
        Call.git ["diff-index", "--cached", "--exit-code", "HEAD"] ⟨"", none⟩] ∧
    (run gitWorld emptyPrefixArgs topLevelRepo).world = topLevelRepo := by
  decide

end claims

end Gover
